import Mathlib

/-
Verification of the termulus terminal-emulator core: a shallow embedding of
src/parser.rs (the incremental ANSI/CSI output parser) and src/terminal.rs
(the screen-state reducer), together with theorems checking the written
specification against this embedding.

Modelling conventions:
* Bytes are `Nat` (the source works on `u8`; all byte constants are < 256 and
  no arithmetic on bytes overflows, so no masking is needed).
* `Cow<'a, [u8]>` is modelled by the inductive `Cow`: the `borrowed` mode
  stands for a zero-copy view into the current input chunk, `owned` for an
  independently allocated copy.  The unsafe pointer-extension `push_byte`
  appends one byte while preserving the mode, which is exactly its effect on
  the bytes it denotes (the raw-pointer bookkeeping has no other observable
  effect).
* Code that can panic (`unreachable!`, `panic!`, and the `expect` on
  `usize::from_str_radix`, which fails when the decimal value exceeds
  `usize::MAX`) is modelled with `Option`: `none` is a crash.
* `Vec::drain` panics when the start of the range exceeds the length; the
  `Terminal` reducer therefore also returns `Option`.  Likewise the
  1-indexed to 0-indexed conversion `x - 1` on `usize` underflows when the
  wire value is 0; this is modelled as `none`.
-/

namespace Termulus

/-- `ESC` byte, 0x1B (src/parser.rs `pub const ESC`). -/
def ESC : Nat := 27

/-- `CSI` byte `[`, 0x5B (src/parser.rs `pub const CSI`). -/
def CSI : Nat := 91

/-- `IsTerminator::is_csi_terminator` for `u8` (src/parser.rs):
`A..=H`, `J`, `K`, `S`, `T`, `f`, `m`, `s`, `u`. -/
def isCsiTerminator (b : Nat) : Bool :=
  (65 ≤ b && b ≤ 72) || b == 74 || b == 75 || b == 83 || b == 84 ||
    b == 102 || b == 109 || b == 115 || b == 117

/-- `u8::is_ascii_digit`: `0`..=`9`. -/
def isAsciiDigit (b : Nat) : Bool := 48 ≤ b && b ≤ 57

/-- `Cow<'a, [u8]>` from std, reframed per the spec: `borrowed` is a view into
the current input chunk, `owned` an independent copy; only the byte contents
are semantically relevant. -/
inductive Cow where
  | borrowed (data : List Nat)
  | owned (data : List Nat)
  deriving DecidableEq, Repr

/-- The byte sequence a `Cow` denotes. -/
def Cow.data : Cow → List Nat
  | .borrowed d => d
  | .owned d => d

/-- `push_byte` (src/parser.rs): extend a borrowed view over the following
contiguous input byte, or push onto the owned vector.  Either way the
denoted bytes gain `b` at the end and the mode is unchanged. -/
def Cow.pushByte : Cow → Nat → Cow
  | .borrowed d, b => .borrowed (d ++ [b])
  | .owned d, b => .owned (d ++ [b])

/-- Canonical (all-owned) form of a `Cow`; two `Cow`s denote the same bytes
iff their canonical forms are equal. -/
def Cow.canon (c : Cow) : Cow := .owned c.data

/-- `usize::MAX` on the 64-bit targets the crate builds for. -/
def USIZE_MAX : Nat := 2 ^ 64 - 1

/-- Decimal value of an ASCII-digit byte string (radix-10 accumulation). -/
def digitsToNat (ds : List Nat) : Nat := ds.foldl (fun a d => a * 10 + (d - 48)) 0

/-- The inner `accumulate` closure of `CsiParser::push` (src/parser.rs):
an empty span yields no argument (`some none`); a non-empty span of digits is
parsed as decimal, and the `expect` on `from_str_radix` panics (`none`) when
the value does not fit in `usize`. -/
def accumulate (ds : List Nat) : Option (Option Nat) :=
  if ds.length > 0 then
    if digitsToNat ds ≤ USIZE_MAX then some (some (digitsToNat ds)) else none
  else some none

/-- `CsiState<'a>` (src/parser.rs). -/
inductive CsiState where
  | argument (slice : Cow)
  | finished (t : Nat)
  deriving DecidableEq, Repr

/-- `CsiParser<'a>` (src/parser.rs). -/
structure CsiParser where
  state : CsiState
  args : List Nat
  deriving DecidableEq, Repr

/-- `CsiParser::new`. -/
def CsiParser.new : CsiParser := ⟨.argument (.borrowed []), []⟩

/-- `CsiParser::has_incomplete_output`. -/
def CsiParser.hasIncompleteOutput (p : CsiParser) : Bool :=
  match p.state with
  | .argument slice => slice.data.length > 0
  | .finished _ => false

/-- `CsiParser::take_incomplete`: convert a non-empty borrowed argument span
to owned. -/
def CsiParser.takeIncomplete (p : CsiParser) : CsiParser :=
  match p.state with
  | .argument (.borrowed d) =>
    if d.length > 0 then ⟨.argument (.owned d), p.args⟩ else p
  | _ => p

/-- `CsiParser::push` (src/parser.rs).  `none` is a panic: pushing into a
finished sequence, or decimal overflow inside `accumulate`.  A terminator
finalizes the pending argument and finishes; `;` finalizes and starts a new
argument; a digit extends the span; any other byte converts the span to
owned (the invalid byte is skipped, with a printed diagnostic). -/
def CsiParser.push (p : CsiParser) (b : Nat) : Option CsiParser :=
  match p.state with
  | .finished _ => none
  | .argument slice =>
    if isCsiTerminator b then
      match accumulate slice.data with
      | none => none
      | some a => some ⟨.finished b, p.args ++ a.toList⟩
    else if b == 59 then
      match accumulate slice.data with
      | none => none
      | some a => some ⟨.argument (.borrowed []), p.args ++ a.toList⟩
    else if isAsciiDigit b then
      some ⟨.argument (slice.pushByte b), p.args⟩
    else
      some ⟨.argument (.owned slice.data), p.args⟩

/-- Canonical form of a `CsiState` (argument span made owned). -/
def CsiState.canon : CsiState → CsiState
  | .argument slice => .argument slice.canon
  | .finished t => .finished t

/-- Canonical form of a `CsiParser`. -/
def CsiParser.canon (p : CsiParser) : CsiParser := ⟨p.state.canon, p.args⟩

/-- `TerminalOutput<'a>` (src/parser.rs); byte payloads are their contents. -/
inductive TerminalOutput where
  | ansi (bytes : List Nat)
  | text (bytes : List Nat)
  | setCursorPos (x y : Nat)
  | clearForwards
  | clearBackwards
  | clearAll
  | restoreCursorPos
  | saveCursorPos
  deriving DecidableEq, Repr

/-- `AnsiBuilder<'a>` (src/parser.rs). -/
inductive AnsiBuilder where
  | empty
  | esc
  | csi (p : CsiParser)
  deriving DecidableEq, Repr

/-- `OutputParser<'a>` (src/parser.rs); the field the source calls
`partial` (the pending text / escape buffer) is named `buf` here. -/
structure OutputParser where
  state : AnsiBuilder
  buf : Cow
  deriving DecidableEq, Repr

/-- `OutputParser::new`. -/
def OutputParser.new : OutputParser := ⟨.empty, .borrowed []⟩

/-- The `CsiState::Finished` arms of the match in `OutputParser::parse`
(src/parser.rs lines 306-341): map a terminator byte and the collected
argument list to the emitted events.  `args.pop()` removes from the end of
the vector, hence `getLast?` / `dropLast`.  `none` is the
`panic!("invalid argument for J command")` on a `J` argument `3..`. -/
def finishCsi (t : Nat) (args : List Nat) : Option (List TerminalOutput) :=
  if t == 72 then
    some [.setCursorPos (args.getLast?.getD 1) (args.dropLast.getLast?.getD 1)]
  else if t == 74 then
    match args.getLast? with
    | none => some [.clearForwards]
    | some 0 => some [.clearForwards]
    | some 1 => some [.clearBackwards]
    | some 2 => some [.clearAll]
    | some _ => none
  else if t == 115 then some [.saveCursorPos]
  else if t == 117 then some [.restoreCursorPos]
  else some [.ansi []]

/-- The body of the per-byte loop of `OutputParser::parse` (src/parser.rs
lines 264-345).  `none` is a panic (the `unreachable!` for a terminator in
`Esc` state, or a panic inside the CSI machinery). -/
def stepByte (p : OutputParser) (b : Nat) : Option (OutputParser × List TerminalOutput) :=
  match p.state with
  | .empty =>
    if b == ESC then
      if p.buf.data.length > 0 then
        some (⟨.esc, .borrowed []⟩, [.text p.buf.data])
      else
        some (⟨.esc, p.buf⟩, [])
    else
      some (⟨.empty, p.buf.pushByte b⟩, [])
  | .esc =>
    if b == CSI then
      some (⟨.csi CsiParser.new, p.buf⟩, [])
    else if isCsiTerminator b then
      none
    else
      some (⟨.esc, p.buf.pushByte b⟩, [])
  | .csi cp =>
    match cp.push b with
    | none => none
    | some cp2 =>
      match cp2.state with
      | .argument _ => some (⟨.csi cp2, p.buf⟩, [])
      | .finished t =>
        match finishCsi t cp2.args with
        | none => none
        | some evs => some (⟨.empty, p.buf⟩, evs)

/-- The whole `for byte in bytes` loop of `OutputParser::parse`, collecting
emitted events in order. -/
def runLoop (p : OutputParser) : List Nat → Option (OutputParser × List TerminalOutput)
  | [] => some (p, [])
  | b :: rest =>
    match stepByte p b with
    | none => none
    | some (q, evs) =>
      match runLoop q rest with
      | none => none
      | some (r, evs2) => some (r, evs ++ evs2)

/-- `OutputParser::partial_take` (src/parser.rs lines 218-255): in `Empty`
state a non-empty pending buffer is taken (and returned to be emitted as a
final `Text` event); in `Csi` state incomplete argument digits are converted
to owned; in `Esc` state a non-empty borrowed pending buffer is converted to
owned. -/
def OutputParser.bufTake (p : OutputParser) : OutputParser × Option (List Nat) :=
  match p.state with
  | .empty =>
    if p.buf.data.length > 0 then (⟨.empty, .borrowed []⟩, some p.buf.data)
    else (p, none)
  | .csi cp =>
    (⟨.csi (if cp.hasIncompleteOutput then cp.takeIncomplete else cp), p.buf⟩, none)
  | .esc =>
    match p.buf with
    | .borrowed d => if d.length > 0 then (⟨.esc, .owned d⟩, none) else (p, none)
    | .owned _ => (p, none)

/-- The opening of `OutputParser::parse`: if the pending buffer is empty it
is re-pointed as an (empty) borrowed view into the new input chunk. -/
def initAdjust (p : OutputParser) : OutputParser :=
  if p.buf.data = [] then ⟨p.state, .borrowed []⟩ else p

/-- `OutputParser::parse` (src/parser.rs lines 257-350): adjust the pending
buffer, run the byte loop, then `partial_take`, appending a final `Text`
event when pending text was taken. -/
def OutputParser.parseCall (p : OutputParser) (bytes : List Nat) :
    Option (OutputParser × List TerminalOutput) :=
  match runLoop (initAdjust p) bytes with
  | none => none
  | some (q, evs) =>
    match q.bufTake with
    | (q2, some txt) => some (q2, evs ++ [TerminalOutput.text txt])
    | (q2, none) => some (q2, evs)

/-- Canonical form of an `AnsiBuilder`. -/
def AnsiBuilder.canon : AnsiBuilder → AnsiBuilder
  | .empty => .empty
  | .esc => .esc
  | .csi cp => .csi cp.canon

/-- Canonical form of an `OutputParser`: all spans owned.  Parsing is
insensitive to span modes (they exist only to avoid copying), which the
`canon` congruence lemmas below make precise. -/
def OutputParser.canon (p : OutputParser) : OutputParser := ⟨p.state.canon, p.buf.canon⟩

/-- State-and-events pair with the state in canonical form. -/
def canonPair (r : OutputParser × List TerminalOutput) : OutputParser × List TerminalOutput :=
  (r.1.canon, r.2)

/-- Coalesce adjacent `Text` events, concatenating their byte payloads.
Used to compare the event streams of split and unsplit parses. -/
def mergeText : List TerminalOutput → List TerminalOutput
  | [] => []
  | .text a :: rest =>
    match mergeText rest with
    | .text b :: r => .text (a ++ b) :: r
    | r => .text a :: r
  | e :: rest => e :: mergeText rest

/-- `CursorPos` (src/terminal.rs): zero-indexed column `x`, row `y`. -/
structure CursorPos where
  x : Nat
  y : Nat
  deriving DecidableEq, Repr

/-- Rust `slice::split(|b| *b == b'\n')`: the maximal `\n`-free chunks, with
an empty chunk for each boundary newline (and one trailing/leading empty
chunk as Rust produces). -/
def splitLines : List Nat → List (List Nat)
  | [] => [[]]
  | b :: rest =>
    if b == 10 then [] :: splitLines rest
    else
      match splitLines rest with
      | [] => [[b]]
      | l :: ls => (b :: l) :: ls

/-- `CursorPos::to_buffer_pos` (src/terminal.rs): sum of the lengths of the
first `y` newline-separated lines plus `x` (the separator bytes themselves
are not counted — the source's documented undercount). -/
def CursorPos.toBufferPos (c : CursorPos) (buffer : List Nat) : Nat :=
  (((splitLines buffer).take c.y).map List.length).sum + c.x

/-- One byte of `CursorPos::update` (src/terminal.rs). -/
def CursorPos.updateByte (c : CursorPos) (b : Nat) : CursorPos :=
  if b == 10 then ⟨0, c.y + 1⟩
  else if b == 13 then ⟨0, c.y⟩
  else if b == 9 then ⟨c.x + 4, c.y⟩
  else ⟨c.x + 1, c.y⟩

/-- `CursorPos::update` over an incoming text run. -/
def CursorPos.update (c : CursorPos) (incoming : List Nat) : CursorPos :=
  incoming.foldl CursorPos.updateByte c

/-- The state owned by `Terminal` (src/terminal.rs) that the event loop in
`Terminal::read` mutates: screen buffer, cursor, saved cursor.  The pty file
descriptor and the embedded parser are I/O plumbing outside this model. -/
structure Terminal where
  buffer : List Nat
  cursor : CursorPos
  savedCursor : Option CursorPos
  deriving DecidableEq, Repr

/-- One iteration of the `for segment in segments` loop of `Terminal::read`
(src/terminal.rs lines 151-187).  `none` is a panic: `drain` with an
out-of-range start, or the `usize` underflow of `x - 1` / `y - 1` when a
`SetCursorPos` event carries a zero coordinate. -/
def Terminal.applyOutput (t : Terminal) : TerminalOutput → Option Terminal
  | .ansi _ => some t
  | .text bytes =>
    some ⟨t.buffer ++ bytes, t.cursor.update bytes, t.savedCursor⟩
  | .setCursorPos x y =>
    if x == 0 || y == 0 then none
    else some ⟨t.buffer, ⟨x - 1, y - 1⟩, t.savedCursor⟩
  | .clearForwards =>
    let pos := t.cursor.toBufferPos t.buffer
    if pos ≤ t.buffer.length then some ⟨t.buffer.take pos, t.cursor, t.savedCursor⟩
    else none
  | .clearBackwards =>
    let pos := t.cursor.toBufferPos t.buffer
    if pos ≤ t.buffer.length then some ⟨t.buffer.drop pos, t.cursor, t.savedCursor⟩
    else none
  | .clearAll =>
    some ⟨[], ⟨0, 0⟩, t.savedCursor⟩
  | .restoreCursorPos =>
    match t.savedCursor with
    | some saved => some ⟨t.buffer, saved, none⟩
    | none => some t
  | .saveCursorPos =>
    some ⟨t.buffer, t.cursor, some t.cursor⟩

/-- Apply a sequence of parser events to the terminal state, in order. -/
def Terminal.applyAll (t : Terminal) : List TerminalOutput → Option Terminal
  | [] => some t
  | e :: rest =>
    match t.applyOutput e with
    | none => none
    | some t2 => t2.applyAll rest

/-- A pure cursor-movement event. -/
def isCursorMovement : TerminalOutput → Bool
  | .setCursorPos _ _ => true
  | _ => false

theorem Cow.data_pushByte (c : Cow) (b : Nat) : (c.pushByte b).data = c.data ++ [b] := by
  cases c <;> rfl

theorem Cow.data_borrowed (d : List Nat) : (Cow.borrowed d).data = d := rfl

theorem Cow.data_owned (d : List Nat) : (Cow.owned d).data = d := rfl

theorem Cow.data_canon (c : Cow) : c.canon.data = c.data := rfl

theorem Cow.canon_idem (c : Cow) : c.canon.canon = c.canon := rfl

theorem Cow.canon_pushByte (c : Cow) (b : Nat) :
    (c.pushByte b).canon = (c.canon.pushByte b).canon := by
  cases c <;> rfl

theorem CsiState.canon_idem2 (s : CsiState) : s.canon.canon = s.canon := by
  cases s <;> rfl

theorem CsiParser.canon_idem3 (p : CsiParser) : p.canon.canon = p.canon := by
  obtain ⟨st, args⟩ := p
  simp [CsiParser.canon, CsiState.canon_idem2]

theorem AnsiBuilder.canon_idem4 (s : AnsiBuilder) : s.canon.canon = s.canon := by
  cases s with
  | csi cp => simp [AnsiBuilder.canon, CsiParser.canon_idem3]
  | _ => rfl

theorem OutputParser.canon_idem5 (p : OutputParser) : p.canon.canon = p.canon := by
  obtain ⟨st, buf⟩ := p
  simp [OutputParser.canon, AnsiBuilder.canon_idem4, Cow.canon_idem]

theorem CsiParser.canon_args (p : CsiParser) : p.canon.args = p.args := rfl

theorem CsiParser.hasIncompleteOutput_canon (p : CsiParser) :
    p.canon.hasIncompleteOutput = p.hasIncompleteOutput := by
  obtain ⟨st, args⟩ := p
  cases st <;> rfl

theorem CsiParser.takeIncomplete_canon (p : CsiParser) :
    p.takeIncomplete.canon = p.canon := by
  obtain ⟨st, args⟩ := p
  cases st with
  | finished t => rfl
  | argument slice =>
    cases slice with
    | owned d => rfl
    | borrowed d =>
      by_cases hd : d.length > 0 <;>
        simp [CsiParser.takeIncomplete, CsiParser.canon, CsiState.canon, Cow.canon, Cow.data, hd]

theorem CsiParser.takeIncomplete_of_canon (p : CsiParser) :
    p.canon.takeIncomplete = p.canon := by
  obtain ⟨st, args⟩ := p
  cases st <;> rfl

theorem CsiParser.push_canon (p : CsiParser) (b : Nat) :
    (p.push b).map CsiParser.canon = (p.canon.push b).map CsiParser.canon := by
  obtain ⟨st, args⟩ := p
  cases st with
  | finished t => rfl
  | argument slice =>
    simp only [CsiParser.push, CsiParser.canon, CsiState.canon, Cow.data_canon]
    by_cases h1 : isCsiTerminator b
    · cases accumulate slice.data <;>
        simp [h1, CsiParser.canon, CsiState.canon]
    · by_cases h2 : b == 59
      · cases accumulate slice.data <;>
          simp [h1, h2, CsiParser.canon, CsiState.canon]
      · by_cases h3 : isAsciiDigit b <;>
          simp [h1, h2, h3, CsiParser.canon, CsiState.canon, Cow.canon, Cow.data_owned,
            Cow.data_pushByte]

theorem stepByte_canon (p : OutputParser) (b : Nat) :
    (stepByte p b).map canonPair = (stepByte p.canon b).map canonPair := by
  obtain ⟨st, buf⟩ := p
  cases st with
  | empty =>
    by_cases hb : b == ESC
    · by_cases hl : buf.data.length > 0 <;>
        simp [stepByte, OutputParser.canon, AnsiBuilder.canon, canonPair, hb, hl,
          Cow.canon, Cow.data_owned, Cow.data_canon]
    · simp [stepByte, OutputParser.canon, AnsiBuilder.canon, canonPair, hb,
        Cow.canon, Cow.data_owned, Cow.data_pushByte]
  | esc =>
    by_cases hb : b == CSI
    · simp [stepByte, OutputParser.canon, AnsiBuilder.canon, canonPair, hb,
        Cow.canon, Cow.data_owned]
    · by_cases ht : isCsiTerminator b <;>
        simp [stepByte, OutputParser.canon, AnsiBuilder.canon, canonPair, hb, ht,
          Cow.canon, Cow.data_owned, Cow.data_pushByte]
  | csi cp =>
    have hpush := CsiParser.push_canon cp b
    simp only [stepByte, OutputParser.canon, AnsiBuilder.canon]
    cases hc : cp.push b with
    | none =>
      cases hc2 : cp.canon.push b with
      | none => rfl
      | some q => simp [hc, hc2] at hpush
    | some q =>
      cases hc2 : cp.canon.push b with
      | none => simp [hc, hc2] at hpush
      | some q2 =>
        rw [hc, hc2] at hpush
        simp only [Option.map_some', Option.some.injEq] at hpush
        obtain ⟨qst, qargs⟩ := q
        obtain ⟨q2st, q2args⟩ := q2
        cases qst with
        | argument s1 =>
          cases q2st with
          | argument s2 =>
            simp only [CsiParser.canon, CsiState.canon, CsiParser.mk.injEq,
              CsiState.argument.injEq, Cow.canon, Cow.owned.injEq] at hpush
            obtain ⟨hst, hargs⟩ := hpush
            subst hargs
            simp [canonPair, OutputParser.canon, AnsiBuilder.canon, CsiParser.canon,
              CsiState.canon, Cow.canon, Cow.data_owned, hst]
          | finished t2 => simp [CsiParser.canon, CsiState.canon] at hpush
        | finished t1 =>
          cases q2st with
          | argument s2 => simp [CsiParser.canon, CsiState.canon] at hpush
          | finished t2 =>
            simp only [CsiParser.canon, CsiState.canon, CsiParser.mk.injEq,
              CsiState.finished.injEq] at hpush
            obtain ⟨hst, hargs⟩ := hpush
            subst hst; subst hargs
            cases hf : finishCsi t1 qargs <;>
              simp [canonPair, OutputParser.canon, AnsiBuilder.canon, Cow.canon, Cow.data_owned,
                hf]

theorem stepByte_congr (p q : OutputParser) (b : Nat) (h : p.canon = q.canon) :
    (stepByte p b).map canonPair = (stepByte q b).map canonPair := by
  rw [stepByte_canon p b, h, ← stepByte_canon q b]

theorem map_canonPair_some {x y : Option (OutputParser × List TerminalOutput)}
    {r : OutputParser × List TerminalOutput}
    (h : x.map canonPair = y.map canonPair) (hx : x = some r) :
    ∃ r2, y = some r2 ∧ r2.1.canon = r.1.canon ∧ r2.2 = r.2 := by
  subst hx
  cases y with
  | none => simp at h
  | some r2 =>
    simp only [Option.map_some', Option.some.injEq, canonPair, Prod.mk.injEq] at h
    exact ⟨r2, rfl, h.1.symm, h.2.symm⟩

theorem runLoop_congr (c : List Nat) :
    ∀ p q : OutputParser, p.canon = q.canon →
      (runLoop p c).map canonPair = (runLoop q c).map canonPair := by
  induction c with
  | nil => intro p q h; simp [runLoop, canonPair, h]
  | cons b rest ih =>
    intro p q h
    have hs := stepByte_congr p q b h
    cases hp : stepByte p b with
    | none =>
      rw [hp] at hs
      cases hq : stepByte q b with
      | none => simp [runLoop, hp, hq]
      | some r2 => rw [hq] at hs; simp at hs
    | some r =>
      obtain ⟨r2, hq, hcanon, hevs⟩ := map_canonPair_some hs hp
      have hrest := ih r.1 r2.1 hcanon.symm
      cases hr : runLoop r.1 rest with
      | none =>
        cases hr2 : runLoop r2.1 rest with
        | none => simp [runLoop, hp, hq, hr, hr2]
        | some v => rw [hr, hr2] at hrest; simp at hrest
      | some v =>
        obtain ⟨v2, hr2, hvc, hve⟩ := map_canonPair_some hrest hr
        simp [runLoop, hp, hq, hr, hr2, canonPair, hvc, hve, hevs]

theorem runLoop_append (a b : List Nat) : ∀ p : OutputParser,
    runLoop p (a ++ b) =
      match runLoop p a with
      | none => none
      | some (q, e1) =>
        match runLoop q b with
        | none => none
        | some (r, e2) => some (r, e1 ++ e2) := by
  induction a with
  | nil =>
    intro p
    simp only [List.nil_append, runLoop]
    cases runLoop p b with
    | none => rfl
    | some r => simp
  | cons x xs ih =>
    intro p
    simp only [List.cons_append, runLoop]
    cases stepByte p x with
    | none => rfl
    | some r =>
      obtain ⟨q0, e0⟩ := r
      dsimp only [List.append_eq]
      rw [ih q0]
      cases runLoop q0 xs with
      | none => rfl
      | some v =>
        obtain ⟨v1, v2⟩ := v
        dsimp only
        cases runLoop v1 b with
        | none => rfl
        | some w => simp [List.append_assoc]

theorem bufTake_canon (p : OutputParser) :
    p.canon.bufTake.2 = p.bufTake.2 ∧ p.canon.bufTake.1.canon = p.bufTake.1.canon := by
  obtain ⟨st, buf⟩ := p
  cases st with
  | empty =>
    by_cases hl : buf.data.length > 0 <;>
      simp [OutputParser.bufTake, OutputParser.canon, AnsiBuilder.canon,
        Cow.canon, Cow.data_owned, hl]
  | esc =>
    cases buf with
    | borrowed d =>
      by_cases hl : d.length > 0 <;>
        simp [OutputParser.bufTake, OutputParser.canon, AnsiBuilder.canon,
          Cow.canon, Cow.data_owned, Cow.data_borrowed, hl]
    | owned d =>
      simp [OutputParser.bufTake, OutputParser.canon, AnsiBuilder.canon,
        Cow.canon, Cow.data_owned]
  | csi cp =>
    simp only [OutputParser.bufTake, OutputParser.canon, AnsiBuilder.canon,
      CsiParser.hasIncompleteOutput_canon]
    by_cases hi : cp.hasIncompleteOutput <;>
      simp [hi, CsiParser.takeIncomplete_of_canon, CsiParser.takeIncomplete_canon,
        CsiParser.canon_idem3, Cow.canon, Cow.data_owned]

theorem bufTake_congr (p q : OutputParser) (h : p.canon = q.canon) :
    p.bufTake.2 = q.bufTake.2 ∧ p.bufTake.1.canon = q.bufTake.1.canon := by
  have h1 := bufTake_canon p
  have h2 := bufTake_canon q
  rw [h] at h1
  exact ⟨h1.1.symm.trans h2.1, h1.2.symm.trans h2.2⟩

theorem initAdjust_canon (p : OutputParser) : (initAdjust p).canon = p.canon := by
  obtain ⟨st, buf⟩ := p
  by_cases hd : buf.data = [] <;>
    simp [initAdjust, OutputParser.canon, Cow.canon, Cow.data_borrowed, hd]

theorem parseCall_unfold (p : OutputParser) (bytes : List Nat)
    (q : OutputParser) (e : List TerminalOutput)
    (hrun : runLoop (initAdjust p) bytes = some (q, e)) :
    p.parseCall bytes =
      some (q.bufTake.1, e ++ (q.bufTake.2.map TerminalOutput.text).toList) := by
  unfold OutputParser.parseCall
  rw [hrun]
  rcases htk : q.bufTake with ⟨q2, w⟩
  cases w <;> simp [htk]

theorem parseCall_canon_run (q stM stF : OutputParser) (e2 : List TerminalOutput)
    (c2 : List Nat) (h : q.canon = stM.canon)
    (hrun : runLoop stM c2 = some (stF, e2)) :
    ∃ q2, q.parseCall c2 =
      some (q2, e2 ++ (stF.bufTake.2.map TerminalOutput.text).toList) := by
  have hadj : (initAdjust q).canon = stM.canon := (initAdjust_canon q).trans h
  have hcong := runLoop_congr c2 stM (initAdjust q) hadj.symm
  obtain ⟨r2, hr2, hcanon, hevs⟩ := map_canonPair_some hcong hrun
  have htk := bufTake_congr r2.1 stF hcanon
  obtain ⟨r2a, r2b⟩ := r2
  simp only at hevs
  subst hevs
  refine ⟨r2a.bufTake.1, ?_⟩
  rw [parseCall_unfold q c2 r2a r2b hr2, htk.1]

theorem mergeText_text_text (a b : List Nat) (ys : List TerminalOutput) :
    mergeText (.text a :: .text b :: ys) = mergeText (.text (a ++ b) :: ys) := by
  cases h : mergeText ys with
  | nil => simp [mergeText, h]
  | cons e r =>
    cases e <;> simp [mergeText, h, List.append_assoc]

theorem mergeText_append (xs : List TerminalOutput) (a b : List Nat)
    (ys : List TerminalOutput) :
    mergeText (xs ++ .text a :: .text b :: ys) = mergeText (xs ++ .text (a ++ b) :: ys) := by
  induction xs with
  | nil => exact mergeText_text_text a b ys
  | cons e xs ih =>
    cases e <;> simp [mergeText, ih]

/-- Running the byte loop in `Empty` state with pending text `p ++ t`, versus
running it with pending text `t`: until the first ESC both runs only grow the
pending buffer, and at the first ESC the first run emits `Text (p ++ u)`
where the second emits `Text u` (or nothing when `u` is empty), after which
they coincide exactly. -/
theorem runLoop_text_carry (c : List Nat) : ∀ (t p : List Nat) (cw : Cow),
    p ≠ [] → cw.data = p ++ t →
    (runLoop ⟨.empty, cw⟩ c = none ∧ runLoop ⟨.empty, .borrowed t⟩ c = none)
    ∨ (∃ u cw2, cw2.data = p ++ u ∧
        runLoop ⟨.empty, cw⟩ c = some (⟨.empty, cw2⟩, []) ∧
        runLoop ⟨.empty, .borrowed t⟩ c = some (⟨.empty, .borrowed u⟩, []))
    ∨ (∃ u e s, runLoop ⟨.empty, cw⟩ c = some (s, .text (p ++ u) :: e) ∧
        runLoop ⟨.empty, .borrowed t⟩ c = some (s, if u = [] then e else .text u :: e)) := by
  induction c with
  | nil =>
    intro t p cw hp hdata
    right; left
    exact ⟨t, cw, hdata, rfl, rfl⟩
  | cons b rest ih =>
    intro t p cw hp hdata
    by_cases hb : b == ESC
    · have hstep1 : stepByte ⟨.empty, cw⟩ b =
          some (⟨.esc, .borrowed []⟩, [.text (p ++ t)]) := by
        simp [stepByte, hb, hdata]
        intro hpe
        exact (hp hpe).elim
      have hstep2 : stepByte ⟨.empty, .borrowed t⟩ b =
          some (⟨.esc, .borrowed []⟩, if t = [] then [] else [.text t]) := by
        by_cases ht : t = []
        · subst ht; simp [stepByte, hb, Cow.data_borrowed]
        · have : (Cow.borrowed t).data.length > 0 := by
            simp [Cow.data_borrowed]
            exact List.length_pos.mpr ht
          simp [stepByte, hb, this, Cow.data_borrowed, ht]
      cases hr : runLoop ⟨.esc, .borrowed []⟩ rest with
      | none =>
        left
        constructor <;> simp [runLoop, hstep1, hstep2, hr]
      | some v =>
        obtain ⟨s, e⟩ := v
        right; right
        refine ⟨t, e, s, ?_, ?_⟩
        · simp [runLoop, hstep1, hr]
        · by_cases ht : t = []
          · rw [ht] at hstep2 ⊢
            simp only [if_pos] at hstep2 ⊢
            simp [runLoop, hstep2, hr]
          · rw [if_neg ht]
            simp [runLoop, hstep2, hr, ht]
    · have hstep1 : stepByte ⟨.empty, cw⟩ b = some (⟨.empty, cw.pushByte b⟩, []) := by
        simp [stepByte, hb]
      have hstep2 : stepByte ⟨.empty, .borrowed t⟩ b =
          some (⟨.empty, .borrowed (t ++ [b])⟩, []) := by
        simp [stepByte, hb, Cow.pushByte]
      have hdata2 : (cw.pushByte b).data = p ++ (t ++ [b]) := by
        rw [Cow.data_pushByte, hdata, List.append_assoc]
      rcases ih (t ++ [b]) p (cw.pushByte b) hp hdata2 with hcase | hcase | hcase
      · left
        constructor <;> simp [runLoop, hstep1, hstep2, hcase.1, hcase.2]
      · obtain ⟨u, cw2, hd2, h1, h2⟩ := hcase
        right; left
        exact ⟨u, cw2, hd2, by simp [runLoop, hstep1, h1], by simp [runLoop, hstep2, h2]⟩
      · obtain ⟨u, e, s, h1, h2⟩ := hcase
        right; right
        exact ⟨u, e, s, by simp [runLoop, hstep1, h1], by simp [runLoop, hstep2, h2]⟩

theorem bufTake_esc (buf : Cow) :
    (OutputParser.mk .esc buf).bufTake.2 = none ∧
    (OutputParser.mk .esc buf).bufTake.1.canon = (OutputParser.mk .esc buf).canon := by
  cases buf with
  | borrowed d =>
    by_cases hl : d.length > 0 <;>
      simp [OutputParser.bufTake, OutputParser.canon, AnsiBuilder.canon, Cow.canon,
        Cow.data_borrowed, Cow.data_owned, hl]
  | owned d => simp [OutputParser.bufTake]

theorem bufTake_csi (cp : CsiParser) (buf : Cow) :
    (OutputParser.mk (.csi cp) buf).bufTake.2 = none ∧
    (OutputParser.mk (.csi cp) buf).bufTake.1.canon = (OutputParser.mk (.csi cp) buf).canon := by
  refine ⟨rfl, ?_⟩
  by_cases hi : cp.hasIncompleteOutput <;>
    simp [OutputParser.bufTake, OutputParser.canon, AnsiBuilder.canon, hi,
      CsiParser.takeIncomplete_canon]

/-- Splitting a chunk in two and parsing the parts on the same parser yields
the same events as parsing it whole, up to coalescing of adjacent `Text`
events (the end-of-call flush can split one text run in two). -/
theorem parseCall_split_chunks (c1 c2 : List Nat) (st : OutputParser)
    (evs : List TerminalOutput)
    (h : OutputParser.new.parseCall (c1 ++ c2) = some (st, evs)) :
    ∃ r1 r2, OutputParser.new.parseCall c1 = some r1 ∧
      r1.1.parseCall c2 = some r2 ∧
      mergeText (r1.2 ++ r2.2) = mergeText evs := by
  cases hA : runLoop (initAdjust OutputParser.new) c1 with
  | none =>
    exfalso
    unfold OutputParser.parseCall at h
    rw [runLoop_append c1 c2 (initAdjust OutputParser.new), hA] at h
    simp at h
  | some rA =>
  obtain ⟨stM, e1⟩ := rA
  cases hB : runLoop stM c2 with
  | none =>
    exfalso
    unfold OutputParser.parseCall at h
    rw [runLoop_append c1 c2 (initAdjust OutputParser.new), hA] at h
    dsimp only at h
    rw [hB] at h
    simp at h
  | some rB =>
  obtain ⟨stF, e2⟩ := rB
  have hrunAll : runLoop (initAdjust OutputParser.new) (c1 ++ c2) = some (stF, e1 ++ e2) := by
    rw [runLoop_append c1 c2 (initAdjust OutputParser.new), hA]
    dsimp only
    rw [hB]
  rw [parseCall_unfold _ _ _ _ hrunAll] at h
  simp only [Option.some.injEq, Prod.mk.injEq] at h
  obtain ⟨hst, hevs⟩ := h
  subst hevs
  have h1 := parseCall_unfold OutputParser.new c1 stM e1 hA
  obtain ⟨stS, cwM⟩ := stM
  cases stS with
  | esc =>
    have hbt := bufTake_esc cwM
    obtain ⟨q2, hq2⟩ :=
      parseCall_canon_run (OutputParser.mk .esc cwM).bufTake.1 ⟨.esc, cwM⟩ stF e2 c2 hbt.2 hB
    refine ⟨_, _, h1, hq2, ?_⟩
    rw [hbt.1]
    simp [List.append_assoc]
  | csi cp =>
    have hbt := bufTake_csi cp cwM
    obtain ⟨q2, hq2⟩ :=
      parseCall_canon_run (OutputParser.mk (.csi cp) cwM).bufTake.1 ⟨.csi cp, cwM⟩ stF e2 c2
        hbt.2 hB
    refine ⟨_, _, h1, hq2, ?_⟩
    rw [hbt.1]
    simp [List.append_assoc]
  | empty =>
    by_cases hd : cwM.data = []
    · have hbt : (OutputParser.mk .empty cwM).bufTake = (⟨.empty, cwM⟩, none) := by
        simp [OutputParser.bufTake, hd]
      obtain ⟨q2, hq2⟩ :=
        parseCall_canon_run (OutputParser.mk .empty cwM).bufTake.1 ⟨.empty, cwM⟩ stF e2 c2
          (by rw [hbt]) hB
      refine ⟨_, _, h1, hq2, ?_⟩
      rw [hbt]
      simp [List.append_assoc]
    · have hlen : cwM.data.length > 0 := List.length_pos.mpr hd
      have hbt : (OutputParser.mk .empty cwM).bufTake =
          (⟨.empty, .borrowed []⟩, some cwM.data) := by
        simp [OutputParser.bufTake, hlen]
      rw [hbt] at h1
      simp only [Option.map_some', Option.toList_some] at h1
      have hadj2 : initAdjust ⟨.empty, .borrowed []⟩ = (⟨.empty, .borrowed []⟩ : OutputParser) := by
        simp [initAdjust, Cow.data_borrowed]
      rcases runLoop_text_carry c2 [] cwM.data cwM hd (by simp) with hcase | hcase | hcase
      · rw [hcase.1] at hB
        exact absurd hB (by simp)
      · obtain ⟨u, cw2, hd2, hrun1, hrun2⟩ := hcase
        rw [hrun1] at hB
        simp only [Option.some.injEq, Prod.mk.injEq] at hB
        obtain ⟨hBs, hBe⟩ := hB
        subst hBs
        subst hBe
        have hcw2ne : cw2.data ≠ [] := by
          rw [hd2]
          intro hemp
          exact hd (List.append_eq_nil.mp hemp).1
        have hbtF : (⟨.empty, cw2⟩ : OutputParser).bufTake =
            (⟨.empty, .borrowed []⟩, some cw2.data) := by
          simp [OutputParser.bufTake, List.length_pos.mpr hcw2ne]
        by_cases hu : u = []
        · subst hu
          have h2 := parseCall_unfold ⟨.empty, .borrowed []⟩ c2 ⟨.empty, .borrowed []⟩ []
            (by rw [hadj2]; exact hrun2)
          have hbt0 : (⟨.empty, .borrowed []⟩ : OutputParser).bufTake =
              (⟨.empty, .borrowed []⟩, none) := by
            simp [OutputParser.bufTake, Cow.data_borrowed]
          rw [hbt0] at h2
          simp only [Option.map_none', Option.toList_none, List.append_nil, List.nil_append] at h2
          refine ⟨_, _, h1, h2, ?_⟩
          rw [hbtF, hd2]
          simp
        · have h2 := parseCall_unfold ⟨.empty, .borrowed []⟩ c2 ⟨.empty, .borrowed u⟩ []
            (by rw [hadj2]; exact hrun2)
          have hbtu : (⟨.empty, .borrowed u⟩ : OutputParser).bufTake =
              (⟨.empty, .borrowed []⟩, some u) := by
            simp [OutputParser.bufTake, Cow.data_borrowed, List.length_pos.mpr hu]
          rw [hbtu] at h2
          simp only [Option.map_some', Option.toList_some, List.nil_append] at h2
          refine ⟨_, _, h1, h2, ?_⟩
          rw [hbtF, hd2]
          simpa using mergeText_append e1 cwM.data u []
      · obtain ⟨u, e, sS, hrun1, hrun2⟩ := hcase
        rw [hrun1] at hB
        simp only [Option.some.injEq, Prod.mk.injEq] at hB
        obtain ⟨hBs, hBe⟩ := hB
        subst hBs
        subst hBe
        have h2 := parseCall_unfold ⟨.empty, .borrowed []⟩ c2 sS _
          (by rw [hadj2]; exact hrun2)
        refine ⟨_, _, h1, h2, ?_⟩
        by_cases hu : u = []
        · subst hu
          simp [List.append_assoc]
        · rw [if_neg hu]
          simpa [List.append_assoc] using
            mergeText_append e1 cwM.data u (e ++ (sS.bufTake.2.map TerminalOutput.text).toList)

theorem applyAll_moves_saved (moves : List TerminalOutput) :
    ∀ t t1 : Terminal, moves.all isCursorMovement = true →
      t.applyAll moves = some t1 → t1.savedCursor = t.savedCursor := by
  induction moves with
  | nil =>
    intro t t1 _ h
    simp only [Terminal.applyAll, Option.some.injEq] at h
    subst h
    rfl
  | cons e rest ih =>
    intro t t1 hall h
    simp only [List.all_cons, Bool.and_eq_true] at hall
    cases e with
    | setCursorPos x y =>
      by_cases hc : (x == 0 || y == 0) = true
      · have hnone : t.applyOutput (.setCursorPos x y) = none := by
          simp only [Terminal.applyOutput, hc, if_true]
        simp only [Terminal.applyAll, hnone] at h
        exact Option.noConfusion h
      · have happ : t.applyOutput (.setCursorPos x y) =
            some ⟨t.buffer, ⟨x - 1, y - 1⟩, t.savedCursor⟩ := by
          simp only [Terminal.applyOutput, hc, if_false, Bool.false_eq_true]
        simp only [Terminal.applyAll, happ] at h
        exact ih ⟨t.buffer, ⟨x - 1, y - 1⟩, t.savedCursor⟩ t1 hall.2 h
    | ansi bs => simp [isCursorMovement] at hall
    | text bs => simp [isCursorMovement] at hall
    | clearForwards => simp [isCursorMovement] at hall
    | clearBackwards => simp [isCursorMovement] at hall
    | clearAll => simp [isCursorMovement] at hall
    | restoreCursorPos => simp [isCursorMovement] at hall
    | saveCursorPos => simp [isCursorMovement] at hall

/-- Claim C1, counterexample: the well-formed stream `"ab"` split at byte 1
gives event sequences `[Text "a"]` then `[Text "b"]`, while the single call
gives `[Text "ab"]`; the concatenated sequences are not equal, because the
end-of-call flush in Idle state splits the text run. -/
theorem C1_counterexample :
    OutputParser.new.parseCall [97, 98] =
      some (⟨.empty, .borrowed []⟩, [.text [97, 98]]) ∧
    OutputParser.new.parseCall [97] =
      some (⟨.empty, .borrowed []⟩, [.text [97]]) ∧
    (OutputParser.mk .empty (.borrowed [])).parseCall [98] =
      some (⟨.empty, .borrowed []⟩, [.text [98]]) ∧
    [TerminalOutput.text [97], TerminalOutput.text [98]] ≠
      [TerminalOutput.text [97, 98]] := by
  refine ⟨?_, ?_, ?_, ?_⟩ <;> decide

/-- Claim C1, amended: for every byte stream `s` that a single `parse` call on
a fresh parser processes without fault and every split point `i`, parsing
`s.take i` and then `s.drop i` on the same parser succeeds and yields the same
ordered event sequence up to coalescing adjacent `Text` events (the trailing
pending text of the first call is flushed at the chunk boundary, so one text
run may be split in two). -/
theorem C1_split_round_trip (s : List Nat) (i : Nat) (st : OutputParser)
    (evs : List TerminalOutput)
    (h : OutputParser.new.parseCall s = some (st, evs)) :
    ∃ r1 r2, OutputParser.new.parseCall (List.take i s) = some r1 ∧
      r1.1.parseCall (List.drop i s) = some r2 ∧
      mergeText (r1.2 ++ r2.2) = mergeText evs := by
  have hs : List.take i s ++ List.drop i s = s := List.take_append_drop i s
  rw [← hs] at h
  exact parseCall_split_chunks _ _ st evs h

theorem C1_split_round_trip_witness :
    ∃ r1 r2, OutputParser.new.parseCall (List.take 1 [97, 98]) = some r1 ∧
      r1.1.parseCall (List.drop 1 [97, 98]) = some r2 ∧
      mergeText (r1.2 ++ r2.2) = mergeText [TerminalOutput.text [97, 98]] :=
  C1_split_round_trip [97, 98] 1 ⟨.empty, .borrowed []⟩ [.text [97, 98]] (by decide)

/-- Claim C2, counterexample: `parse(b"hello\x1B[1;12Hworld")` on a fresh
parser ends in Idle state with pending text `"world"`, and that pending text
IS emitted as a `Text` event at the end of the very same call (the third
event below), contradicting the claim that it is retained until a later ESC
or end-of-stream. -/
theorem C2_counterexample :
    OutputParser.new.parseCall
        [104, 101, 108, 108, 111, 27, 91, 49, 59, 49, 50, 72,
         119, 111, 114, 108, 100] =
      some (⟨.empty, .borrowed []⟩,
        [.text [104, 101, 108, 108, 111], .setCursorPos 12 1,
         .text [119, 111, 114, 108, 100]]) := by
  decide

/-- Claim C2, amended: whenever the byte loop of a `parse` call ends in Idle
state with a non-empty pending span, `partial_take` flushes that span as a
final `Text` event of the same call, leaving the pending buffer empty. -/
theorem C2_end_flush (p : OutputParser) (bytes : List Nat) (cw : Cow)
    (e : List TerminalOutput)
    (hrun : runLoop (initAdjust p) bytes = some (⟨.empty, cw⟩, e))
    (hne : cw.data ≠ []) :
    p.parseCall bytes = some (⟨.empty, .borrowed []⟩, e ++ [.text cw.data]) := by
  have hbt : (⟨.empty, cw⟩ : OutputParser).bufTake =
      (⟨.empty, .borrowed []⟩, some cw.data) := by
    simp [OutputParser.bufTake, List.length_pos.mpr hne]
  have hu := parseCall_unfold p bytes ⟨.empty, cw⟩ e hrun
  rw [hbt] at hu
  simpa using hu

theorem C2_end_flush_witness :
    OutputParser.new.parseCall [104, 101, 108, 108, 111] =
      some (⟨.empty, .borrowed []⟩,
        [] ++ [.text (Cow.borrowed [104, 101, 108, 108, 111]).data]) :=
  C2_end_flush OutputParser.new [104, 101, 108, 108, 111]
    (.borrowed [104, 101, 108, 108, 111]) [] (by decide) (by decide)

/-- Claim C3: for `ESC [ 5 H` (a single argument) the code emits
`SetCursorPos{x := 5, y := 1}`, i.e. column 5, row 1 — the single argument is
popped into the COLUMN slot because `args.pop()` takes the last argument
first, so the first argument in encounter order does not become the row.  The
second conjunct exhibits the pop order for every argument list. -/
theorem C3_single_arg_pop :
    OutputParser.new.parseCall [27, 91, 53, 72] =
      some (⟨.empty, .borrowed []⟩, [.setCursorPos 5 1]) ∧
    ∀ args : List Nat, finishCsi 72 args =
      some [.setCursorPos (args.getLast?.getD 1) (args.dropLast.getLast?.getD 1)] := by
  constructor
  · decide
  · intro args
    rfl

/-- Claim C4, counterexample: `parse(b"\x1B[1;xH")` does NOT discard the
malformed sequence as a unit — it still emits the `H` event
(`SetCursorPos{x := 1, y := 1}`) built from the surviving arguments. -/
theorem C4_counterexample :
    OutputParser.new.parseCall [27, 91, 49, 59, 120, 72] =
      some (⟨.empty, .borrowed []⟩, [.setCursorPos 1 1]) ∧
    ([TerminalOutput.setCursorPos 1 1] : List TerminalOutput) ≠ [] := by
  refine ⟨?_, ?_⟩ <;> decide

/-- Claim C4, amended: an invalid byte inside a CSI argument (neither digit,
`;`, nor a recognized terminator) never crashes the parser: `push` returns
normally, the invalid byte is skipped (the accumulated digits and finished
arguments are preserved, the span converted to owned) and scanning continues
for the next terminator, which then still emits its event. -/
theorem C4_invalid_byte_skipped (slice : Cow) (args : List Nat) (b : Nat)
    (h1 : isCsiTerminator b = false) (h2 : (b == 59) = false)
    (h3 : isAsciiDigit b = false) :
    CsiParser.push ⟨.argument slice, args⟩ b =
      some ⟨.argument (.owned slice.data), args⟩ := by
  simp [CsiParser.push, h1, h2, h3]

theorem C4_invalid_byte_skipped_witness :
    CsiParser.push ⟨.argument (.borrowed [49]), [1]⟩ 120 =
      some ⟨.argument (.owned (Cow.borrowed [49]).data), [1]⟩ :=
  C4_invalid_byte_skipped (.borrowed [49]) [1] 120 (by decide) (by decide) (by decide)

/-- Claim C5: a `J` command with argument 3 (outside {absent,0,1,2}) does not
recover as the forwards-clear default: the code panics
(`panic!("invalid argument for J command")`, modelled as `none`). -/
theorem C5_bad_j_panics :
    OutputParser.new.parseCall [27, 91, 51, 74] = none ∧
    finishCsi 74 [3] = none := by
  refine ⟨?_, ?_⟩ <;> decide

/-- Claim C6, counterexample: feeding `b"\x1B\x1B[s"` puts the second ESC
byte into the pending text span (the `Esc`-state catch-all pushes it), and
after the `s` command completes, the pending span is flushed as
`Text [0x1B]`; applying those events leaves the ESC byte in the screen
buffer. -/
theorem C6_counterexample :
    Option.map Terminal.buffer
      ((OutputParser.new.parseCall [27, 27, 91, 115]).bind
        (fun r => Terminal.applyAll ⟨[], ⟨0, 0⟩, none⟩ r.2)) = some [ESC] := by
  decide

/-- Claim C6, amended: an ESC byte read while the parser is in Idle state is
always consumed by the parser itself — the step moves to `Esc` state with an
empty pending span (flushing any prior text), so such an ESC byte is never
appended to pending text.  ESC bytes arriving in `Esc` state, and non-ESC
control bytes inside plain text, do reach the buffer (C6_counterexample). -/
theorem C6_idle_esc_consumed (c : Cow) :
    (stepByte ⟨.empty, c⟩ ESC).map (fun r => (r.1.state, r.1.buf.data)) =
      some (AnsiBuilder.esc, ([] : List Nat)) := by
  by_cases hl : c.data.length > 0
  · simp [stepByte, hl, Cow.data_borrowed]
  · have hnil : c.data = [] := by
      simpa using hl
    simp [stepByte, hl, hnil]

/-- Claim C7: `parse(b"\x1B[1;1")` yields no events and leaves the parser
mid-CSI with the pending digit `"1"` converted to owned and the finished
argument 1 recorded; the follow-up `parse(b"2H")` yields exactly
`SetCursorPos{x := 12, y := 1}` (column 12, row 1). -/
theorem C7_split_csi_resume :
    OutputParser.new.parseCall [27, 91, 49, 59, 49] =
      some (⟨.csi ⟨.argument (.owned [49]), [1]⟩, .borrowed []⟩, []) ∧
    (OutputParser.mk (.csi ⟨.argument (.owned [49]), [1]⟩) (.borrowed [])).parseCall
        [50, 72] =
      some (⟨.empty, .borrowed []⟩, [.setCursorPos 12 1]) := by
  refine ⟨?_, ?_⟩ <;> decide

/-- Claim C8: after `SaveCursorPos`, any sequence of cursor movements, and
`RestoreCursorPos`, the cursor is exactly the saved one and the saved slot is
consumed; a second `RestoreCursorPos` with no intervening save is a silent
no-op (same terminal, not an error). -/
theorem C8_save_restore (t : Terminal) (moves : List TerminalOutput)
    (hmv : moves.all isCursorMovement = true) (t1 : Terminal)
    (h1 : t.applyAll (.saveCursorPos :: moves) = some t1) :
    ∃ t2, t1.applyOutput .restoreCursorPos = some t2 ∧
      t2.cursor = t.cursor ∧ t2.savedCursor = none ∧ t2.buffer = t1.buffer ∧
      t2.applyOutput .restoreCursorPos = some t2 := by
  have h1b : Terminal.applyAll ⟨t.buffer, t.cursor, some t.cursor⟩ moves = some t1 := h1
  have hsaved := applyAll_moves_saved moves ⟨t.buffer, t.cursor, some t.cursor⟩ t1 hmv h1b
  refine ⟨⟨t1.buffer, t.cursor, none⟩, ?_, rfl, rfl, rfl, rfl⟩
  simp only [Terminal.applyOutput]
  rw [hsaved]

theorem C8_save_restore_witness :
    ∃ t2, (⟨[], ⟨4, 6⟩, some ⟨2, 3⟩⟩ : Terminal).applyOutput .restoreCursorPos = some t2 ∧
      t2.cursor = (⟨[], ⟨2, 3⟩, none⟩ : Terminal).cursor ∧ t2.savedCursor = none ∧
      t2.buffer = (⟨[], ⟨4, 6⟩, some ⟨2, 3⟩⟩ : Terminal).buffer ∧
      t2.applyOutput .restoreCursorPos = some t2 :=
  C8_save_restore ⟨[], ⟨2, 3⟩, none⟩ [.setCursorPos 5 7] (by decide)
    ⟨[], ⟨4, 6⟩, some ⟨2, 3⟩⟩ (by decide)

/-- Claim C9: `ClearForwards` and `ClearBackwards` mutate only the buffer:
whenever they apply without fault, the cursor and the saved-cursor slot are
unchanged. -/
theorem C9_clear_frame (t tf : Terminal)
    (h : t.applyOutput .clearForwards = some tf ∨
         t.applyOutput .clearBackwards = some tf) :
    tf.cursor = t.cursor ∧ tf.savedCursor = t.savedCursor := by
  rcases h with h | h
  · simp only [Terminal.applyOutput] at h
    split at h
    · injection h with h2
      subst h2
      exact ⟨rfl, rfl⟩
    · exact Option.noConfusion h
  · simp only [Terminal.applyOutput] at h
    split at h
    · injection h with h2
      subst h2
      exact ⟨rfl, rfl⟩
    · exact Option.noConfusion h

theorem C9_clear_frame_witness :
    (⟨[97], ⟨1, 0⟩, none⟩ : Terminal).cursor =
        (⟨[97, 98], ⟨1, 0⟩, none⟩ : Terminal).cursor ∧
    (⟨[97], ⟨1, 0⟩, none⟩ : Terminal).savedCursor =
        (⟨[97, 98], ⟨1, 0⟩, none⟩ : Terminal).savedCursor :=
  C9_clear_frame ⟨[97, 98], ⟨1, 0⟩, none⟩ ⟨[97], ⟨1, 0⟩, none⟩ (Or.inl (by decide))

/-- Claim C10: the parser emits `SetCursorPos{x := 0, y := 0}` for
`ESC [ 0 ; 0 H`, and applying a `SetCursorPos` event is well-defined exactly
when both coordinates are at least 1 — the `x - 1` / `y - 1` conversion is an
unsigned subtraction that underflows on a zero wire value. -/
theorem C10_setcursor_underflow :
    Option.map Prod.snd (OutputParser.new.parseCall [27, 91, 48, 59, 48, 72]) =
      some [TerminalOutput.setCursorPos 0 0] ∧
    ∀ (t : Terminal) (x y : Nat),
      (t.applyOutput (.setCursorPos x y)).isSome ↔ (1 ≤ x ∧ 1 ≤ y) := by
  constructor
  · decide
  · intro t x y
    by_cases hx : x = 0
    · subst hx
      simp [Terminal.applyOutput]
    · by_cases hy : y = 0
      · subst hy
        simp [Terminal.applyOutput, hx]
      · simp [Terminal.applyOutput, hx, hy, Nat.one_le_iff_ne_zero]

end Termulus
